import Mathlib

/-!
Verification of the lexical analyzer specification for the pikchr-style
diagram language.  The repository source under scrutiny provides the token
vocabulary (the 98 token-kind constants of `pikchr.h`); the scanning logic
itself is not part of the provided sources, so it is modelled faithfully
from the specification's scanning algorithm (spec section 4.1, rules 1-9).
-/

set_option autoImplicit false

/-! ## Token-kind constants, transcribed from src/c/pikchr.h -/

def T_ID : Nat := 1
def T_EDGEPT : Nat := 2
def T_OF : Nat := 3
def T_PLUS : Nat := 4
def T_MINUS : Nat := 5
def T_STAR : Nat := 6
def T_SLASH : Nat := 7
def T_PERCENT : Nat := 8
def T_UMINUS : Nat := 9
def T_EOL : Nat := 10
def T_ASSIGN : Nat := 11
def T_PLACENAME : Nat := 12
def T_COLON : Nat := 13
def T_ASSERT : Nat := 14
def T_LP : Nat := 15
def T_EQ : Nat := 16
def T_RP : Nat := 17
def T_DEFINE : Nat := 18
def T_CODEBLOCK : Nat := 19
def T_FILL : Nat := 20
def T_COLOR : Nat := 21
def T_THICKNESS : Nat := 22
def T_PRINT : Nat := 23
def T_STRING : Nat := 24
def T_COMMA : Nat := 25
def T_CLASSNAME : Nat := 26
def T_LB : Nat := 27
def T_RB : Nat := 28
def T_UP : Nat := 29
def T_DOWN : Nat := 30
def T_LEFT : Nat := 31
def T_RIGHT : Nat := 32
def T_CLOSE : Nat := 33
def T_CHOP : Nat := 34
def T_FROM : Nat := 35
def T_TO : Nat := 36
def T_THEN : Nat := 37
def T_HEADING : Nat := 38
def T_GO : Nat := 39
def T_AT : Nat := 40
def T_WITH : Nat := 41
def T_SAME : Nat := 42
def T_AS : Nat := 43
def T_FIT : Nat := 44
def T_BEHIND : Nat := 45
def T_UNTIL : Nat := 46
def T_EVEN : Nat := 47
def T_DOT_E : Nat := 48
def T_HEIGHT : Nat := 49
def T_WIDTH : Nat := 50
def T_RADIUS : Nat := 51
def T_DIAMETER : Nat := 52
def T_DOTTED : Nat := 53
def T_DASHED : Nat := 54
def T_CW : Nat := 55
def T_CCW : Nat := 56
def T_LARROW : Nat := 57
def T_RARROW : Nat := 58
def T_LRARROW : Nat := 59
def T_INVIS : Nat := 60
def T_THICK : Nat := 61
def T_THIN : Nat := 62
def T_SOLID : Nat := 63
def T_CENTER : Nat := 64
def T_LJUST : Nat := 65
def T_RJUST : Nat := 66
def T_ABOVE : Nat := 67
def T_BELOW : Nat := 68
def T_ITALIC : Nat := 69
def T_BOLD : Nat := 70
def T_ALIGNED : Nat := 71
def T_BIG : Nat := 72
def T_SMALL : Nat := 73
def T_AND : Nat := 74
def T_LT : Nat := 75
def T_GT : Nat := 76
def T_ON : Nat := 77
def T_WAY : Nat := 78
def T_BETWEEN : Nat := 79
def T_THE : Nat := 80
def T_NTH : Nat := 81
def T_VERTEX : Nat := 82
def T_TOP : Nat := 83
def T_BOTTOM : Nat := 84
def T_START : Nat := 85
def T_END : Nat := 86
def T_IN : Nat := 87
def T_THIS : Nat := 88
def T_DOT_U : Nat := 89
def T_LAST : Nat := 90
def T_NUMBER : Nat := 91
def T_FUNC1 : Nat := 92
def T_FUNC2 : Nat := 93
def T_DIST : Nat := 94
def T_DOT_XY : Nat := 95
def T_X : Nat := 96
def T_Y : Nat := 97
def T_DOT_L : Nat := 98

/-- The token table of src/c/pikchr.h: each named token-kind constant paired
with its integer value, in source order. -/
def tokenTable : List (String × Nat) :=
  [("T_ID", T_ID), ("T_EDGEPT", T_EDGEPT), ("T_OF", T_OF), ("T_PLUS", T_PLUS),
   ("T_MINUS", T_MINUS), ("T_STAR", T_STAR), ("T_SLASH", T_SLASH),
   ("T_PERCENT", T_PERCENT), ("T_UMINUS", T_UMINUS), ("T_EOL", T_EOL),
   ("T_ASSIGN", T_ASSIGN), ("T_PLACENAME", T_PLACENAME), ("T_COLON", T_COLON),
   ("T_ASSERT", T_ASSERT), ("T_LP", T_LP), ("T_EQ", T_EQ), ("T_RP", T_RP),
   ("T_DEFINE", T_DEFINE), ("T_CODEBLOCK", T_CODEBLOCK), ("T_FILL", T_FILL),
   ("T_COLOR", T_COLOR), ("T_THICKNESS", T_THICKNESS), ("T_PRINT", T_PRINT),
   ("T_STRING", T_STRING), ("T_COMMA", T_COMMA), ("T_CLASSNAME", T_CLASSNAME),
   ("T_LB", T_LB), ("T_RB", T_RB), ("T_UP", T_UP), ("T_DOWN", T_DOWN),
   ("T_LEFT", T_LEFT), ("T_RIGHT", T_RIGHT), ("T_CLOSE", T_CLOSE),
   ("T_CHOP", T_CHOP), ("T_FROM", T_FROM), ("T_TO", T_TO), ("T_THEN", T_THEN),
   ("T_HEADING", T_HEADING), ("T_GO", T_GO), ("T_AT", T_AT),
   ("T_WITH", T_WITH), ("T_SAME", T_SAME), ("T_AS", T_AS), ("T_FIT", T_FIT),
   ("T_BEHIND", T_BEHIND), ("T_UNTIL", T_UNTIL), ("T_EVEN", T_EVEN),
   ("T_DOT_E", T_DOT_E), ("T_HEIGHT", T_HEIGHT), ("T_WIDTH", T_WIDTH),
   ("T_RADIUS", T_RADIUS), ("T_DIAMETER", T_DIAMETER), ("T_DOTTED", T_DOTTED),
   ("T_DASHED", T_DASHED), ("T_CW", T_CW), ("T_CCW", T_CCW),
   ("T_LARROW", T_LARROW), ("T_RARROW", T_RARROW), ("T_LRARROW", T_LRARROW),
   ("T_INVIS", T_INVIS), ("T_THICK", T_THICK), ("T_THIN", T_THIN),
   ("T_SOLID", T_SOLID), ("T_CENTER", T_CENTER), ("T_LJUST", T_LJUST),
   ("T_RJUST", T_RJUST), ("T_ABOVE", T_ABOVE), ("T_BELOW", T_BELOW),
   ("T_ITALIC", T_ITALIC), ("T_BOLD", T_BOLD), ("T_ALIGNED", T_ALIGNED),
   ("T_BIG", T_BIG), ("T_SMALL", T_SMALL), ("T_AND", T_AND), ("T_LT", T_LT),
   ("T_GT", T_GT), ("T_ON", T_ON), ("T_WAY", T_WAY), ("T_BETWEEN", T_BETWEEN),
   ("T_THE", T_THE), ("T_NTH", T_NTH), ("T_VERTEX", T_VERTEX),
   ("T_TOP", T_TOP), ("T_BOTTOM", T_BOTTOM), ("T_START", T_START),
   ("T_END", T_END), ("T_IN", T_IN), ("T_THIS", T_THIS), ("T_DOT_U", T_DOT_U),
   ("T_LAST", T_LAST), ("T_NUMBER", T_NUMBER), ("T_FUNC1", T_FUNC1),
   ("T_FUNC2", T_FUNC2), ("T_DIST", T_DIST), ("T_DOT_XY", T_DOT_XY),
   ("T_X", T_X), ("T_Y", T_Y), ("T_DOT_L", T_DOT_L)]

/-! ## Data model of the lexer (spec sections 3, 4.1, 7) -/

/-- Decoded literal value carried by a token: nothing, a numeric value, or a
decoded string (also used for the raw text of a code block). -/
inductive LitVal
  | nil
  | num (q : ℚ)
  | str (s : String)
  deriving DecidableEq, Repr

/-- Reason codes of the lexical error taxonomy (spec section 7). -/
inductive LexErrKind
  | unterminatedString
  | unterminatedBlock
  | invalidNumber
  | unexpectedCharacter
  deriving DecidableEq, Repr

/-- A lexical error: reason code, character offset and line number. -/
structure LexErr where
  kind : LexErrKind
  pos : Nat
  line : Nat
  deriving DecidableEq, Repr

/-- A token: kind, source-text span [start, stop), decoded literal value,
and source line number. -/
structure Token where
  kind : Nat
  start : Nat
  stop : Nat
  val : LitVal
  line : Nat
  deriving DecidableEq, Repr

/-- Externally visible lexer states (spec section 4.1): Scanning, the
terminal AtEnd, and the terminal Errored holding the stored error. -/
inductive LexStatus
  | scanning
  | atEnd
  | errored (e : LexErr)
  deriving DecidableEq, Repr

/-- The lexer: a cursor into the (in-memory) source buffer, a line counter
for diagnostics, and the current state. -/
structure Lexer where
  input : List Char
  pos : Nat
  line : Nat
  status : LexStatus
  deriving DecidableEq, Repr

/-- Result of one call to next: a token, the end-of-input marker, or a
lexical error. -/
inductive LexOut
  | tok (t : Token)
  | eoi
  | err (e : LexErr)
  deriving DecidableEq, Repr

/-! ## Character classes and small helpers -/

def chLB : Char := Char.ofNat 123

def chRB : Char := Char.ofNat 125

def isWs (c : Char) : Bool :=
  c = ' ' || c = '\t' || c = '\n' || c = '\r'

def isIdentStart (c : Char) : Bool :=
  c.isAlpha || c = '_'

def isIdentChar (c : Char) : Bool :=
  c.isAlpha || c.isDigit || c = '_'

/-- Does the head of the list satisfy the predicate? -/
def headIs (p : Char → Bool) : List Char → Bool
  | [] => false
  | c :: _ => p c

/-- Length of the maximal run of characters satisfying the predicate at the
front of the list. -/
def runLen (p : Char → Bool) : List Char → Nat
  | [] => 0
  | c :: cs => if p c then 1 + runLen p cs else 0

/-- Number of newline characters in the list (for the line counter). -/
def countNL (l : List Char) : Nat :=
  (l.filter (fun c => c = '\n')).length

/-- Numeric value of a list of decimal digit characters. -/
def digVal (l : List Char) : Nat :=
  l.foldl (fun a c => 10 * a + (c.toNat - 48)) 0

/-- Association-list lookup with decidable key equality. -/
def alookup {α : Type} [DecidableEq α] : List (α × Nat) → α → Option Nat
  | [], _ => none
  | (a, v) :: t, x => if x = a then some v else alookup t x

/-- Lowercased copy of a string (for case-insensitive table lookup). -/
def lowerStr (s : String) : String :=
  String.mk (s.data.map Char.toLower)

/-! ## Rule 1: whitespace and comment skipping.

Modelled from the spec: the scanning logic of the lexer is not among the
provided sources (only the token table src/c/pikchr.h is); rule 1 of spec
section 4.1 prescribes skipping whitespace and line comments that begin
with a designated marker and run to end-of-line.  The marker is taken to
be the hash character.  The flag records being inside a line comment. -/
def skipWC (inComment : Bool) : List Char → Nat
  | [] => 0
  | c :: cs =>
    if inComment then
      if c = '\n' then 1 + skipWC false cs else 1 + skipWC true cs
    else
      if isWs c then 1 + skipWC false cs
      else if c = '#' then 1 + skipWC true cs
      else 0

/-- Number of leading whitespace/comment characters the lexer discards. -/
def skipWsCom (cs : List Char) : Nat :=
  skipWC false cs

/-! ## Rule 2: quoted strings.

Modelled from the spec: scan to the matching unescaped closing quote,
decoding backslash escapes for quote, backslash, and newline; fail with
UnterminatedString when end-of-input is reached first. -/

/-- Decoding of one backslash escape inside a quoted string. -/
def decodeEsc (d : Char) : String :=
  if d = '"' then "\""
  else if d = '\\' then "\\"
  else if d = 'n' then "\n"
  else String.mk ['\\', d]

/-- Scan the body of a quoted string, the opening quote already consumed.
Returns the decoded value and the number of characters consumed (closing
quote included); errors carry the offset of the failure relative to the
start of the body. -/
def scanString : List Char → Except (LexErrKind × Nat) (String × Nat)
  | [] => .error (.unterminatedString, 0)
  | c :: cs =>
    if c = '"' then .ok ("", 1)
    else if c = '\\' then
      match cs with
      | [] => .error (.unterminatedString, 1)
      | d :: cs' =>
        match scanString cs' with
        | .ok (s, n) => .ok (decodeEsc d ++ s, n + 2)
        | .error (e, off) => .error (e, off + 2)
    else
      match scanString cs with
      | .ok (s, n) => .ok (String.mk [c] ++ s, n + 1)
      | .error (e, off) => .error (e, off + 1)

/-! ## Rule 3: code blocks.

Modelled from the spec: scan with brace-depth tracking, treating nested
braces as balanced pairs, until the matching close at depth zero; the
enclosed text is captured verbatim.  Fails with UnterminatedBlock when the
depth never returns to zero before end-of-input. -/

/-- Scan the body of a code block, the opening brace already consumed.
Returns the number of characters consumed, the matching closing brace
included. -/
def scanBlock (depth : Nat) : List Char → Except (LexErrKind × Nat) Nat
  | [] => .error (.unterminatedBlock, 0)
  | c :: cs =>
    if c = chRB then
      if depth = 0 then .ok 1
      else
        match scanBlock (depth - 1) cs with
        | .ok n => .ok (n + 1)
        | .error (e, off) => .error (e, off + 1)
    else if c = chLB then
      match scanBlock (depth + 1) cs with
      | .ok n => .ok (n + 1)
      | .error (e, off) => .error (e, off + 1)
    else
      match scanBlock depth cs with
      | .ok n => .ok (n + 1)
      | .error (e, off) => .error (e, off + 1)

/-! ## Rule 4: numeric literals.

Modelled from the spec: scan digits, at most one decimal point, and an
optional exponent suffix; emit the parsed value.  Fails with InvalidNumber
on a malformed exponent or a second decimal point. -/

/-- Length of the leading integer-digit part of a numeric literal. -/
def numIntLen (cs : List Char) : Nat :=
  runLen Char.isDigit cs

/-- Is the integer part followed by a decimal point? -/
def numHasDot (cs : List Char) : Bool :=
  headIs (fun c => c = '.') (cs.drop (numIntLen cs))

/-- Number of digits of the fractional part (zero without a decimal point). -/
def numFracDigs (cs : List Char) : Nat :=
  if numHasDot cs then runLen Char.isDigit (cs.drop (numIntLen cs + 1)) else 0

/-- Characters consumed by the mantissa: integer digits, then the decimal
point and the fraction digits when a decimal point is present. -/
def numLen1 (cs : List Char) : Nat :=
  numIntLen cs + (if numHasDot cs then 1 + numFracDigs cs else 0)

/-- Parsed value of the mantissa. -/
def numMant (cs : List Char) : ℚ :=
  (digVal (cs.take (numIntLen cs)) : ℚ)
    + (digVal ((cs.drop (numIntLen cs + 1)).take (numFracDigs cs)) : ℚ)
      / (10 : ℚ) ^ numFracDigs cs

/-- Is the mantissa followed by an exponent marker? -/
def numHasExp (cs : List Char) : Bool :=
  headIs (fun c => c = 'e' || c = 'E') (cs.drop (numLen1 cs))

/-- Length of the exponent sign, when present. -/
def numSgnLen (cs : List Char) : Nat :=
  if headIs (fun c => c = '+' || c = '-') (cs.drop (numLen1 cs + 1)) then 1 else 0

/-- Is the exponent negative? -/
def numExpNeg (cs : List Char) : Bool :=
  headIs (fun c => c = '-') (cs.drop (numLen1 cs + 1))

/-- Number of digits of the exponent (zero marks a malformed exponent). -/
def numExpDigs (cs : List Char) : Nat :=
  runLen Char.isDigit (cs.drop (numLen1 cs + 1 + numSgnLen cs))

/-- Characters consumed by the whole literal when an exponent is present. -/
def numLen2 (cs : List Char) : Nat :=
  numLen1 cs + 1 + numSgnLen cs + numExpDigs cs

/-- Value of the exponent digits. -/
def numExpVal (cs : List Char) : Nat :=
  digVal ((cs.drop (numLen1 cs + 1 + numSgnLen cs)).take (numExpDigs cs))

/-- Parsed value of the whole literal when an exponent is present. -/
def numVal2 (cs : List Char) : ℚ :=
  if numExpNeg cs then numMant cs / (10 : ℚ) ^ numExpVal cs
  else numMant cs * (10 : ℚ) ^ numExpVal cs

/-- Scan a numeric literal at the front of the list (the caller guarantees
the list starts with a digit, or with a decimal point followed by a digit).
Returns the parsed rational value and the number of characters consumed.
A second decimal point or a malformed exponent is an InvalidNumber error
at the offset where it is seen. -/
def scanNumber (cs : List Char) : Except (LexErrKind × Nat) (ℚ × Nat) :=
  if headIs (fun c => c = '.') (cs.drop (numLen1 cs)) then
    .error (.invalidNumber, numLen1 cs)
  else if numHasExp cs then
    if numExpDigs cs = 0 then .error (.invalidNumber, numLen1 cs + 1 + numSgnLen cs)
    else if headIs (fun c => c = '.') (cs.drop (numLen2 cs)) then
      .error (.invalidNumber, numLen2 cs)
    else .ok (numVal2 cs, numLen2 cs)
  else .ok (numMant cs, numLen1 cs)

/-! ## Rules 5 and 6: keyword, class-name and dotted-accessor tables.

Modelled from the spec: the reserved-word table is a read-only mapping
from case-insensitive spelling to token kind (spec sections 3, 4.1 rule 6
and 6); the class-name and dotted-accessor spelling sets are configurable
lookup tables (spec section 9). -/

/-- The reserved-word table: case-insensitive spelling to token kind. -/
def kwTable : List (String × Nat) :=
  [("of", T_OF), ("assert", T_ASSERT), ("define", T_DEFINE), ("fill", T_FILL),
   ("color", T_COLOR), ("thickness", T_THICKNESS), ("print", T_PRINT),
   ("up", T_UP), ("down", T_DOWN), ("left", T_LEFT), ("right", T_RIGHT),
   ("close", T_CLOSE), ("chop", T_CHOP), ("from", T_FROM), ("to", T_TO),
   ("then", T_THEN), ("heading", T_HEADING), ("go", T_GO), ("at", T_AT),
   ("with", T_WITH), ("same", T_SAME), ("as", T_AS), ("fit", T_FIT),
   ("behind", T_BEHIND), ("until", T_UNTIL), ("even", T_EVEN),
   ("height", T_HEIGHT), ("width", T_WIDTH), ("radius", T_RADIUS),
   ("diameter", T_DIAMETER), ("dotted", T_DOTTED), ("dashed", T_DASHED),
   ("cw", T_CW), ("ccw", T_CCW), ("invis", T_INVIS), ("thick", T_THICK),
   ("thin", T_THIN), ("solid", T_SOLID), ("center", T_CENTER),
   ("ljust", T_LJUST), ("rjust", T_RJUST), ("above", T_ABOVE),
   ("below", T_BELOW), ("italic", T_ITALIC), ("bold", T_BOLD),
   ("aligned", T_ALIGNED), ("big", T_BIG), ("small", T_SMALL),
   ("and", T_AND), ("on", T_ON), ("way", T_WAY), ("between", T_BETWEEN),
   ("the", T_THE), ("nth", T_NTH), ("vertex", T_VERTEX), ("top", T_TOP),
   ("bottom", T_BOTTOM), ("start", T_START), ("end", T_END), ("in", T_IN),
   ("this", T_THIS), ("last", T_LAST), ("abs", T_FUNC1), ("cos", T_FUNC1),
   ("int", T_FUNC1), ("sin", T_FUNC1), ("sqrt", T_FUNC1), ("max", T_FUNC2),
   ("min", T_FUNC2), ("dist", T_DIST), ("x", T_X), ("y", T_Y)]

/-- The class-name table: object-type tags recognized by their own naming
convention (spec sections 3 and 9: a configurable lookup table). -/
def classNames : List String :=
  ["arc", "arrow", "box", "circle", "cylinder", "dot", "ellipse", "file",
   "line", "move", "oval", "spline", "text"]

/-- The dotted-accessor table: fixed case-insensitive attribute names that
may follow a dot (spec sections 3, 4.1 rule 5 and 9). -/
def dotTable : List (String × Nat) :=
  [("n", T_DOT_E), ("s", T_DOT_E), ("e", T_DOT_E), ("w", T_DOT_E),
   ("ne", T_DOT_E), ("nw", T_DOT_E), ("se", T_DOT_E), ("sw", T_DOT_E),
   ("c", T_DOT_E), ("center", T_DOT_E), ("start", T_DOT_E), ("end", T_DOT_E),
   ("top", T_DOT_U), ("bottom", T_DOT_U), ("last", T_DOT_L),
   ("x", T_DOT_XY), ("y", T_DOT_XY)]

/-- Classification of a scanned identifier text (spec rule 6): reserved
words first, case-insensitively; otherwise by surface shape, a leading
uppercase letter making a place name, a class-name table match making a
class name, and anything else a plain identifier. -/
def classify (w : String) : Nat :=
  match alookup kwTable (lowerStr w) with
  | some k => k
  | none =>
    if headIs Char.isUpper w.data then T_PLACENAME
    else if lowerStr w ∈ classNames then T_CLASSNAME
    else T_ID

/-- Dotted-accessor match (spec rule 5): the maximal letter run after the
dot, looked up case-insensitively in the fixed accessor table.  Returns
the token kind and the length of the accessor name. -/
def dotMatch (cs : List Char) : Option (Nat × Nat) :=
  let n := runLen Char.isAlpha cs
  if n = 0 then none
  else
    match alookup dotTable (lowerStr (String.mk (cs.take n))) with
    | some k => some (k, n)
    | none => none

/-! ## Rule 7: operators and punctuation.

Modelled from the spec: multi-character operators are matched longest
first against a fixed table, otherwise the single-character operator or
punctuation token is emitted. -/

/-- Single-character operator/punctuation table. -/
def opChar1 : List (Char × Nat) :=
  [('+', T_PLUS), ('*', T_STAR), ('/', T_SLASH), ('%', T_PERCENT),
   ('(', T_LP), (')', T_RP), (chLB, T_LB), (chRB, T_RB), (',', T_COMMA),
   (':', T_COLON), (';', T_EOL)]

/-- Operator match: longest match first among the multi-character
operators, then the single-character tokens.  Returns the token kind and
the number of characters consumed. -/
def opMatch : List Char → Option (Nat × Nat)
  | [] => none
  | c :: rest =>
    if c = '<' then
      if headIs (fun d => d = '-') rest then
        if headIs (fun d => d = '>') (rest.drop 1) then some (T_LRARROW, 3)
        else some (T_LARROW, 2)
      else some (T_LT, 1)
    else if c = '-' then
      if headIs (fun d => d = '>') rest then some (T_RARROW, 2)
      else some (T_MINUS, 1)
    else if c = '=' then
      if headIs (fun d => d = '=') rest then some (T_EQ, 2)
      else some (T_ASSIGN, 1)
    else if c = '>' then some (T_GT, 1)
    else
      match alookup opChar1 c with
      | some k => some (k, 1)
      | none => none

/-! ## The scanner core: one token from the front of the remaining input -/

/-- Scan one token at the front of the list (whitespace already skipped).
Returns none at end-of-input, otherwise the token kind, its literal value
and the number of characters consumed; errors carry the offset of the
failure relative to the start of the list.  The branches follow the
priority order of spec rules 2-8. -/
def nextTok : List Char → Except (LexErrKind × Nat) (Option (Nat × LitVal × Nat))
  | [] => .ok none
  | c :: cs =>
    if c = '"' then
      match scanString cs with
      | .ok (s, n) => .ok (some (T_STRING, .str s, n + 1))
      | .error (e, off) => .error (e, off + 1)
    else if c = chLB then
      match scanBlock 0 cs with
      | .ok n => .ok (some (T_CODEBLOCK, .str (String.mk (cs.take (n - 1))), n + 1))
      | .error (e, off) => .error (e, off + 1)
    else if c.isDigit || (c = '.' && headIs Char.isDigit cs) then
      match scanNumber (c :: cs) with
      | .ok (q, n) => .ok (some (T_NUMBER, .num q, n))
      | .error (e, off) => .error (e, off)
    else if c = '.' then
      match dotMatch cs with
      | some (k, n) => .ok (some (k, LitVal.nil, n + 1))
      | none => .error (.unexpectedCharacter, 0)
    else if isIdentStart c then
      .ok (some (classify (String.mk ((c :: cs).take (runLen isIdentChar (c :: cs)))),
                 LitVal.nil, runLen isIdentChar (c :: cs)))
    else
      match opMatch (c :: cs) with
      | some (k, n) => .ok (some (k, LitVal.nil, n))
      | none => .error (.unexpectedCharacter, 0)

/-! ## The pull interface: next -/

/-- One call of the lexer (spec section 4.1): skip whitespace and comments,
then scan one token; at end-of-input return the end marker and move to the
terminal AtEnd state; on a malformed token record the error and move to
the terminal Errored state, which surfaces the stored error on every
subsequent call. -/
def next (L : Lexer) : LexOut × Lexer :=
  match L.status with
  | .atEnd => (.eoi, L)
  | .errored e => (.err e, L)
  | .scanning =>
    let rest := L.input.drop L.pos
    let ns := skipWsCom rest
    let p1 := L.pos + ns
    let line1 := L.line + countNL (rest.take ns)
    match nextTok (L.input.drop p1) with
    | .ok none => (.eoi, { L with pos := p1, line := line1, status := .atEnd })
    | .ok (some (k, v, n)) =>
      (.tok ⟨k, p1, p1 + n, v, line1⟩,
       { L with pos := p1 + n,
                line := line1 + countNL ((L.input.drop p1).take n) })
    | .error (ek, off) =>
      let e : LexErr := ⟨ek, p1 + off, line1⟩
      (.err e, { L with status := .errored e })

/-- A fresh lexer over the given source text, line counter starting at 1. -/
def mkLexer (s : String) : Lexer :=
  ⟨s.data, 0, 1, .scanning⟩

/-- Run the lexer to completion with the given amount of fuel, collecting
the emitted tokens and the terminating error, when any.  Each emitted
token consumes at least one character, so fuel equal to the input length
plus one always suffices; exhausted fuel is reported as an error so that
an error-free result always denotes a genuine complete scan. -/
def tokenizeFuel : Nat → Lexer → List Token × Option LexErr
  | 0, L => ([], some ⟨.unexpectedCharacter, L.pos, L.line⟩)
  | f + 1, L =>
    match next L with
    | (.tok t, L') =>
      let r := tokenizeFuel f L'
      (t :: r.1, r.2)
    | (.eoi, _) => ([], none)
    | (.err e, _) => ([], some e)

/-- Scan a whole source text: the emitted token sequence and the error that
ended the scan, when any. -/
def tokenize (s : String) : List Token × Option LexErr :=
  tokenizeFuel (s.data.length + 1) (mkLexer s)

/-- All token kinds the scanner core can place into an emitted token. -/
def emittableKinds : List Nat :=
  [T_STRING, T_CODEBLOCK, T_NUMBER, T_PLACENAME, T_CLASSNAME, T_ID,
   T_LRARROW, T_LARROW, T_LT, T_RARROW, T_MINUS, T_EQ, T_ASSIGN, T_GT]
  ++ kwTable.map Prod.snd ++ dotTable.map Prod.snd ++ opChar1.map Prod.snd


/-- The coverage invariant of spec section 3: starting at position p, the
token list accounts for the whole rest of the input, each token's span
preceded exactly by the whitespace/comment material the lexer discards,
and the trailing discard region reaching the end of the input. -/
def covers (input : List Char) : Nat → List Token → Prop
  | p, [] => p + skipWsCom (input.drop p) = input.length
  | p, t :: ts =>
    t.start = p + skipWsCom (input.drop p) ∧ t.start < t.stop ∧
      t.stop ≤ input.length ∧ covers input t.stop ts

/-- The lexer state after a further k calls of next. -/
def skipN : Nat → Lexer → Lexer
  | 0, L => L
  | k + 1, L => skipN k (next L).2

/-! ## Basic facts about the helpers -/

theorem alookup_mem {α : Type} [DecidableEq α] (t : List (α × Nat)) (x : α) (v : Nat)
    (h : alookup t x = some v) : v ∈ t.map Prod.snd := by
  induction t with
  | nil => simp [alookup] at h
  | cons p t ih =>
    obtain ⟨a, w⟩ := p
    by_cases hx : x = a
    · simp [alookup, hx] at h
      simp [h]
    · simp [alookup, hx] at h
      simpa using Or.inr (ih h)

theorem runLen_le_length (p : Char → Bool) (cs : List Char) :
    runLen p cs ≤ cs.length := by
  induction cs with
  | nil => simp [runLen]
  | cons c cs ih =>
    simp only [runLen, List.length_cons]
    split <;> omega

theorem runLen_pos (p : Char → Bool) (c : Char) (cs : List Char)
    (h : p c = true) : 1 ≤ runLen p (c :: cs) := by
  simp [runLen, h]

theorem headIs_length (p : Char → Bool) (cs : List Char)
    (h : headIs p cs = true) : 1 ≤ cs.length := by
  cases cs with
  | nil => simp [headIs] at h
  | cons c cs => simp

theorem headIs_drop_length (p : Char → Bool) (cs : List Char) (k : Nat)
    (h : headIs p (cs.drop k) = true) : k < cs.length := by
  have h1 := headIs_length p _ h
  rw [List.length_drop] at h1
  omega

theorem skipWC_le_length (b : Bool) (cs : List Char) :
    skipWC b cs ≤ cs.length := by
  induction cs generalizing b with
  | nil => simp [skipWC]
  | cons c cs ih =>
    simp only [skipWC, List.length_cons]
    split
    · split
      · have := ih false; omega
      · have := ih true; omega
    · split
      · have := ih false; omega
      · split
        · have := ih true; omega
        · omega

theorem skipWsCom_le_length (cs : List Char) : skipWsCom cs ≤ cs.length :=
  skipWC_le_length false cs

theorem scanString_facts_aux : ∀ (m : Nat) (cs : List Char), cs.length ≤ m →
    ∀ s n, scanString cs = .ok (s, n) → 1 ≤ n ∧ n ≤ cs.length := by
  intro m
  induction m with
  | zero =>
    intro cs hlen s n h
    have : cs = [] := List.eq_nil_of_length_eq_zero (Nat.le_zero.mp hlen)
    subst this
    simp [scanString] at h
  | succ m ih =>
    intro cs hlen s n h
    cases cs with
    | nil => simp [scanString] at h
    | cons c cs =>
      rw [scanString.eq_def] at h
      simp only at h
      by_cases hq : c = '"'
      · rw [if_pos hq] at h
        cases h
        simp
      · rw [if_neg hq] at h
        by_cases hb : c = '\\'
        · rw [if_pos hb] at h
          cases cs with
          | nil => simp at h
          | cons d cs' =>
            simp only at h
            cases hrec : scanString cs' with
            | ok p =>
              obtain ⟨s', n'⟩ := p
              rw [hrec] at h
              simp only at h
              cases h
              have hlen' : cs'.length ≤ m := by
                simp only [List.length_cons] at hlen; omega
              have := ih cs' hlen' s' n' hrec
              simp only [List.length_cons]
              omega
            | error p =>
              obtain ⟨e, off⟩ := p
              rw [hrec] at h
              simp at h
        · rw [if_neg hb] at h
          cases hrec : scanString cs with
          | ok p =>
            obtain ⟨s', n'⟩ := p
            rw [hrec] at h
            simp only at h
            cases h
            have hlen' : cs.length ≤ m := by
              simp only [List.length_cons] at hlen; omega
            have := ih cs hlen' s' n' hrec
            simp only [List.length_cons]
            omega
          | error p =>
            obtain ⟨e, off⟩ := p
            rw [hrec] at h
            simp at h

theorem scanString_facts (cs : List Char) (s : String) (n : Nat)
    (h : scanString cs = .ok (s, n)) : 1 ≤ n ∧ n ≤ cs.length :=
  scanString_facts_aux cs.length cs le_rfl s n h

theorem scanBlock_facts_aux : ∀ (m : Nat) (d : Nat) (cs : List Char), cs.length ≤ m →
    ∀ n, scanBlock d cs = .ok n → 1 ≤ n ∧ n ≤ cs.length := by
  intro m
  induction m with
  | zero =>
    intro d cs hlen n h
    have : cs = [] := List.eq_nil_of_length_eq_zero (Nat.le_zero.mp hlen)
    subst this
    simp [scanBlock] at h
  | succ m ih =>
    intro d cs hlen n h
    cases cs with
    | nil => simp [scanBlock] at h
    | cons c cs =>
      have hlen' : cs.length ≤ m := by
        simp only [List.length_cons] at hlen; omega
      rw [scanBlock.eq_def] at h
      simp only at h
      by_cases hr : c = chRB
      · rw [if_pos hr] at h
        by_cases hd : d = 0
        · rw [if_pos hd] at h
          cases h
          simp
        · rw [if_neg hd] at h
          cases hrec : scanBlock (d - 1) cs with
          | ok n' =>
            rw [hrec] at h
            simp only at h
            cases h
            have := ih (d - 1) cs hlen' n' hrec
            simp only [List.length_cons]
            omega
          | error p =>
            obtain ⟨e, off⟩ := p
            rw [hrec] at h
            simp at h
      · rw [if_neg hr] at h
        by_cases hl : c = chLB
        · rw [if_pos hl] at h
          cases hrec : scanBlock (d + 1) cs with
          | ok n' =>
            rw [hrec] at h
            simp only at h
            cases h
            have := ih (d + 1) cs hlen' n' hrec
            simp only [List.length_cons]
            omega
          | error p =>
            obtain ⟨e, off⟩ := p
            rw [hrec] at h
            simp at h
        · rw [if_neg hl] at h
          cases hrec : scanBlock d cs with
          | ok n' =>
            rw [hrec] at h
            simp only at h
            cases h
            have := ih d cs hlen' n' hrec
            simp only [List.length_cons]
            omega
          | error p =>
            obtain ⟨e, off⟩ := p
            rw [hrec] at h
            simp at h

theorem scanBlock_facts (d : Nat) (cs : List Char) (n : Nat)
    (h : scanBlock d cs = .ok n) : 1 ≤ n ∧ n ≤ cs.length :=
  scanBlock_facts_aux cs.length d cs le_rfl n h

theorem numLen1_le (cs : List Char) : numLen1 cs ≤ cs.length := by
  unfold numLen1 numFracDigs
  have h1 := runLen_le_length Char.isDigit cs
  by_cases hd : numHasDot cs
  · have h2 := headIs_drop_length _ cs _ hd
    have h3 := runLen_le_length Char.isDigit (cs.drop (numIntLen cs + 1))
    simp only [List.length_drop] at h3
    simp only [hd, if_true]
    unfold numIntLen at *
    omega
  · simp [hd]
    unfold numIntLen
    have h1 := runLen_le_length Char.isDigit cs
    omega

theorem numLen1_pos (cs : List Char)
    (h : headIs Char.isDigit cs = true ∨ headIs (fun c => c = '.') cs = true) :
    1 ≤ numLen1 cs := by
  unfold numLen1
  rcases h with h | h
  · cases cs with
    | nil => simp [headIs] at h
    | cons c cs =>
      simp only [headIs] at h
      have := runLen_pos Char.isDigit c cs h
      unfold numIntLen
      omega
  · by_cases hd : numHasDot cs
    · simp only [hd, if_true]
      omega
    · exfalso
      cases cs with
      | nil => simp [headIs] at h
      | cons c cs =>
        simp only [headIs] at h
        have hnd : Char.isDigit c = false := by
          have : c = '.' := by simpa using h
          subst this
          decide
        have h0 : numIntLen (c :: cs) = 0 := by
          unfold numIntLen runLen
          simp [hnd]
        unfold numHasDot at hd
        rw [h0] at hd
        simp only [List.drop_zero] at hd
        exact hd h

theorem numLen2_le (cs : List Char) (hexp : numHasExp cs = true)
    (hdigs : numExpDigs cs ≠ 0) : numLen2 cs ≤ cs.length := by
  unfold numLen2
  have h1 := headIs_drop_length _ cs _ hexp
  have h2 := runLen_le_length Char.isDigit (cs.drop (numLen1 cs + 1 + numSgnLen cs))
  simp only [List.length_drop] at h2
  unfold numExpDigs at hdigs ⊢
  by_cases hs : headIs (fun c => c = '+' || c = '-') (cs.drop (numLen1 cs + 1))
  · have h3 := headIs_drop_length _ cs _ hs
    unfold numSgnLen at *
    simp only [hs, if_true] at *
    omega
  · unfold numSgnLen at *
    simp only [hs, if_false] at *
    omega

theorem scanNumber_facts (cs : List Char) (q : ℚ) (n : Nat)
    (h : scanNumber cs = .ok (q, n)) :
    n ≤ cs.length ∧
      (headIs Char.isDigit cs = true ∨ headIs (fun c => c = '.') cs = true →
        1 ≤ n) := by
  unfold scanNumber at h
  split at h
  · simp at h
  · split at h
    · split at h
      · simp at h
      · split at h
        · simp at h
        · rename_i hexp hdigs hdot2
          simp only [Except.ok.injEq, Prod.mk.injEq] at h
          obtain ⟨-, hn⟩ := h
          subst hn
          refine ⟨numLen2_le cs hexp hdigs, fun hentry => ?_⟩
          have := numLen1_pos cs hentry
          unfold numLen2
          omega
    · simp only [Except.ok.injEq, Prod.mk.injEq] at h
      obtain ⟨-, hn⟩ := h
      subst hn
      exact ⟨numLen1_le cs, numLen1_pos cs⟩

theorem dotMatch_facts (cs : List Char) (k n : Nat)
    (h : dotMatch cs = some (k, n)) :
    1 ≤ n ∧ n ≤ cs.length ∧ k ∈ dotTable.map Prod.snd := by
  unfold dotMatch at h
  simp only at h
  split at h
  · simp at h
  · rename_i hn0
    split at h
    · rename_i k' hk
      simp only [Option.some.injEq, Prod.mk.injEq] at h
      obtain ⟨hk', hn⟩ := h
      subst hk'
      subst hn
      exact ⟨by omega, runLen_le_length _ cs, alookup_mem _ _ _ hk⟩
    · simp at h

theorem opMatch_facts (cs : List Char) (k n : Nat)
    (h : opMatch cs = some (k, n)) :
    1 ≤ n ∧ n ≤ cs.length ∧
      k ∈ [T_LRARROW, T_LARROW, T_LT, T_RARROW, T_MINUS, T_EQ, T_ASSIGN, T_GT]
        ++ opChar1.map Prod.snd := by
  cases cs with
  | nil => simp [opMatch] at h
  | cons c rest =>
    rw [opMatch.eq_def] at h
    simp only at h
    split at h
    · split at h
      · split at h
        · rename_i hm hgt
          cases h
          have h1 := headIs_length _ _ hm
          have h2 := headIs_drop_length _ rest _ hgt
          refine ⟨by omega, by simp only [List.length_cons]; omega, by simp⟩
        · cases h
          rename_i hm _
          have h1 := headIs_length _ _ hm
          refine ⟨by omega, by simp only [List.length_cons]; omega, by simp⟩
      · cases h
        refine ⟨by omega, by simp, by simp⟩
    · split at h
      · split at h
        · cases h
          rename_i hm
          have h1 := headIs_length _ _ hm
          refine ⟨by omega, by simp only [List.length_cons]; omega, by simp⟩
        · cases h
          refine ⟨by omega, by simp, by simp⟩
      · split at h
        · split at h
          · cases h
            rename_i hm
            have h1 := headIs_length _ _ hm
            refine ⟨by omega, by simp only [List.length_cons]; omega, by simp⟩
          · cases h
            refine ⟨by omega, by simp, by simp⟩
        · split at h
          · cases h
            refine ⟨by omega, by simp, by simp⟩
          · split at h
            · rename_i k' hk
              cases h
              refine ⟨by omega, by simp, ?_⟩
              have := alookup_mem _ _ _ hk
              simp only [List.mem_append]
              exact Or.inr this
            · simp at h

theorem classify_mem (w : String) :
    classify w ∈ kwTable.map Prod.snd ++ [T_PLACENAME, T_CLASSNAME, T_ID] := by
  unfold classify
  split
  · rename_i k hk
    have := alookup_mem _ _ _ hk
    simp only [List.mem_append]
    exact Or.inl this
  · split
    · simp
    · split
      · simp
      · simp

theorem nextTok_none (cs : List Char) (h : nextTok cs = .ok none) : cs = [] := by
  cases cs with
  | nil => rfl
  | cons c cs =>
    exfalso
    rw [nextTok.eq_def] at h
    simp only at h
    split at h
    · split at h <;> simp at h
    · split at h
      · split at h <;> simp at h
      · split at h
        · split at h <;> simp at h
        · split at h
          · split at h <;> simp at h
          · split at h
            · simp at h
            · split at h <;> simp at h

set_option maxHeartbeats 1000000 in
theorem nextTok_facts (cs : List Char) (k : Nat) (v : LitVal) (n : Nat)
    (h : nextTok cs = .ok (some (k, v, n))) :
    1 ≤ n ∧ n ≤ cs.length ∧ k ∈ emittableKinds := by
  cases cs with
  | nil => simp [nextTok] at h
  | cons c cs =>
    rw [nextTok.eq_def] at h
    simp only at h
    split at h
    · -- quoted string
      split at h
      · rename_i p s' n' hs
        simp only [Except.ok.injEq, Option.some.injEq, Prod.mk.injEq] at h
        obtain ⟨hk, -, hn⟩ := h
        subst hk; subst hn
        have := scanString_facts cs s' n' hs
        refine ⟨by omega, by simp only [List.length_cons]; omega, by simp [emittableKinds]⟩
      · simp at h
    · split at h
      · -- code block
        split at h
        · rename_i n' hb
          simp only [Except.ok.injEq, Option.some.injEq, Prod.mk.injEq] at h
          obtain ⟨hk, -, hn⟩ := h
          subst hk; subst hn
          have := scanBlock_facts 0 cs n' hb
          refine ⟨by omega, by simp only [List.length_cons]; omega, by simp [emittableKinds]⟩
        · simp at h
      · split at h
        · -- numeric literal
          rename_i hnum
          split at h
          · rename_i p q' n' hq
            simp only [Except.ok.injEq, Option.some.injEq, Prod.mk.injEq] at h
            obtain ⟨hk, -, hn⟩ := h
            subst hk; subst hn
            have hfacts := scanNumber_facts (c :: cs) q' n' hq
            have hentry : headIs Char.isDigit (c :: cs) = true ∨
                headIs (fun x => x = '.') (c :: cs) = true := by
              simp only [Bool.or_eq_true, Bool.and_eq_true] at hnum
              rcases hnum with hd | ⟨hd, -⟩
              · left; simpa [headIs] using hd
              · right; simp [headIs, hd]
            exact ⟨hfacts.2 hentry, hfacts.1, by simp [emittableKinds]⟩
          · simp at h
        · split at h
          · -- dotted accessor
            split at h
            · rename_i p k' n' hd
              simp only [Except.ok.injEq, Option.some.injEq, Prod.mk.injEq] at h
              obtain ⟨hk, -, hn⟩ := h
              subst hk; subst hn
              have := dotMatch_facts cs k' n' hd
              refine ⟨by omega, by simp only [List.length_cons]; omega, ?_⟩
              simp only [emittableKinds, List.mem_append]
              exact Or.inl (Or.inr this.2.2)
            · simp at h
          · split at h
            · -- identifier
              rename_i hid
              simp only [Except.ok.injEq, Option.some.injEq, Prod.mk.injEq] at h
              obtain ⟨hk, -, hn⟩ := h
              subst hk; subst hn
              have hstart : isIdentChar c = true := by
                unfold isIdentStart at hid
                unfold isIdentChar
                simp only [Bool.or_eq_true] at hid ⊢
                tauto
              have h1 := runLen_pos isIdentChar c cs hstart
              have h2 := runLen_le_length isIdentChar (c :: cs)
              refine ⟨by omega, by omega, ?_⟩
              have := classify_mem (String.mk ((c :: cs).take (runLen isIdentChar (c :: cs))))
              simp only [emittableKinds, List.mem_append, List.mem_cons,
                List.not_mem_nil, or_false] at this ⊢
              tauto
            · -- operator
              split at h
              · rename_i p k' n' hop
                simp only [Except.ok.injEq, Option.some.injEq, Prod.mk.injEq] at h
                obtain ⟨hk, -, hn⟩ := h
                subst hk; subst hn
                have := opMatch_facts (c :: cs) k' n' hop
                refine ⟨this.1, this.2.1, ?_⟩
                have hmem := this.2.2
                rcases List.mem_append.mp hmem with h8 | hop1
                · simp only [List.mem_cons, List.not_mem_nil, or_false] at h8
                  simp only [emittableKinds, List.mem_append, List.mem_cons]
                  tauto
                · simp only [emittableKinds, List.mem_append]
                  tauto
              · simp at h

theorem next_tok_facts (L : Lexer) (t : Token) (L' : Lexer)
    (hs : L.status = .scanning) (h : next L = (.tok t, L')) :
    t.start = L.pos + skipWsCom (L.input.drop L.pos) ∧
    t.start < t.stop ∧ t.stop ≤ L.input.length ∧
    L'.input = L.input ∧ L'.pos = t.stop ∧ L'.status = .scanning ∧
    t.kind ∈ emittableKinds := by
  unfold next at h
  rw [hs] at h
  simp only at h
  cases hnt : nextTok (L.input.drop (L.pos + skipWsCom (L.input.drop L.pos))) with
  | ok o =>
    cases o with
    | none =>
      rw [hnt] at h
      simp at h
    | some p =>
      obtain ⟨k, v, n⟩ := p
      rw [hnt] at h
      simp only [Prod.mk.injEq, LexOut.tok.injEq] at h
      obtain ⟨ht, hL'⟩ := h
      have hf := nextTok_facts _ k v n hnt
      obtain ⟨h1, h2, h3⟩ := hf
      rw [List.length_drop] at h2
      subst ht
      subst hL'
      simp only
      exact ⟨trivial, by omega, by omega, trivial, trivial, trivial, h3⟩
  | error p =>
    obtain ⟨ek, off⟩ := p
    rw [hnt] at h
    simp at h

theorem next_eoi_pos (L : Lexer) (hs : L.status = .scanning)
    (hp : L.pos ≤ L.input.length) (h : (next L).1 = .eoi) :
    L.pos + skipWsCom (L.input.drop L.pos) = L.input.length := by
  unfold next at h
  rw [hs] at h
  simp only at h
  cases hnt : nextTok (L.input.drop (L.pos + skipWsCom (L.input.drop L.pos))) with
  | ok o =>
    cases o with
    | none =>
      have hnil := nextTok_none _ hnt
      have hlen : L.input.length - (L.pos + skipWsCom (L.input.drop L.pos)) = 0 := by
        rw [← List.length_drop, hnil]
        rfl
      have hskip := skipWsCom_le_length (L.input.drop L.pos)
      rw [List.length_drop] at hskip
      omega
    | some p =>
      obtain ⟨k, v, n⟩ := p
      rw [hnt] at h
      simp at h
  | error p =>
    obtain ⟨ek, off⟩ := p
    rw [hnt] at h
    simp at h

theorem next_kind_mem (L : Lexer) (t : Token)
    (h : (next L).1 = .tok t) : t.kind ∈ emittableKinds := by
  have hpair : next L = (.tok t, (next L).2) := by
    rw [← h]
  cases hs : L.status with
  | scanning => exact (next_tok_facts L t (next L).2 hs hpair).2.2.2.2.2.2
  | atEnd =>
    exfalso
    unfold next at h
    rw [hs] at h
    simp at h
  | errored e =>
    exfalso
    unfold next at h
    rw [hs] at h
    simp at h

theorem next_eoi_next (L : Lexer) (h : (next L).1 = .eoi) :
    next ((next L).2) = (.eoi, (next L).2) := by
  cases hs : L.status with
  | scanning =>
    unfold next at h ⊢
    rw [hs] at h ⊢
    simp only at h ⊢
    cases hnt : nextTok (L.input.drop (L.pos + skipWsCom (L.input.drop L.pos))) with
    | ok o =>
      cases o with
      | none =>
        rfl
      | some p =>
        obtain ⟨k, v, n⟩ := p
        rw [hnt] at h
        simp at h
    | error p =>
      obtain ⟨ek, off⟩ := p
      rw [hnt] at h
      simp at h
  | atEnd =>
    unfold next
    rw [hs]
    simp only
    rw [hs]
  | errored e =>
    exfalso
    unfold next at h
    rw [hs] at h
    simp at h

theorem tokenizeFuel_covers : ∀ (f : Nat) (L : Lexer) (ts : List Token),
    L.status = .scanning → L.pos ≤ L.input.length →
    tokenizeFuel f L = (ts, none) → covers L.input L.pos ts := by
  intro f
  induction f with
  | zero =>
    intro L ts hs hp h
    simp [tokenizeFuel] at h
  | succ f ih =>
    intro L ts hs hp h
    rw [tokenizeFuel.eq_def] at h
    simp only at h
    rcases hout : next L with ⟨out, L'⟩
    rw [hout] at h
    cases out with
    | tok t =>
      simp only at h
      have hts : ts = t :: (tokenizeFuel f L').1 := by
        have := congrArg Prod.fst h
        simpa using this.symm
      have hnone : (tokenizeFuel f L').2 = none := by
        have := congrArg Prod.snd h
        simpa using this
      obtain ⟨hstart, hlt, hle, hin, hpos, hst, -⟩ := next_tok_facts L t L' hs hout
      subst hts
      have hr : tokenizeFuel f L' = ((tokenizeFuel f L').1, none) := by
        rw [← hnone]
      have hcov := ih L' (tokenizeFuel f L').1 hst (by rw [hin, hpos]; exact hle) hr
      rw [hin, hpos] at hcov
      exact ⟨hstart, hlt, hle, hcov⟩
    | eoi =>
      simp only at h
      have hts : ts = [] := by
        have := congrArg Prod.fst h
        simpa using this.symm
      subst hts
      have hfst : (next L).1 = .eoi := by rw [hout]
      exact next_eoi_pos L hs hp hfst
    | err e =>
      exfalso
      simp only at h
      have := congrArg Prod.snd h
      simp at this

theorem covers_mem (input : List Char) : ∀ (ts : List Token) (p : Nat),
    covers input p ts → ∀ t ∈ ts, p ≤ t.start ∧ t.start < t.stop ∧ t.stop ≤ input.length := by
  intro ts
  induction ts with
  | nil => intro p hc t ht; simp at ht
  | cons u ts ih =>
    intro p hc t ht
    obtain ⟨hstart, hlt, hle, hrest⟩ := hc
    rcases List.mem_cons.mp ht with rfl | hmem
    · exact ⟨by omega, hlt, hle⟩
    · have := ih u.stop hrest t hmem
      exact ⟨by omega, this.2.1, this.2.2⟩

theorem covers_partition (input : List Char) : ∀ (ts : List Token) (p : Nat),
    covers input p ts → ∀ i, p ≤ i → i < input.length →
      (∃ t, t ∈ ts ∧ t.start ≤ i ∧ i < t.stop ∧
        ∀ t', t' ∈ ts → t'.start ≤ i → i < t'.stop → t' = t) ∨
      (∃ q, (q = p ∨ ∃ t ∈ ts, t.stop = q) ∧ q ≤ i ∧
        i < q + skipWsCom (input.drop q) ∧
        ∀ t ∈ ts, ¬(t.start ≤ i ∧ i < t.stop)) := by
  intro ts
  induction ts with
  | nil =>
    intro p hc i hpi hilen
    right
    refine ⟨p, Or.inl rfl, hpi, ?_, by simp⟩
    unfold covers at hc
    omega
  | cons u ts ih =>
    intro p hc i hpi hilen
    obtain ⟨hstart, hlt, hle, hrest⟩ := hc
    have hmemfacts := covers_mem input ts u.stop hrest
    by_cases hlo : i < u.start
    · -- i lies in the discard region before u
      right
      refine ⟨p, Or.inl rfl, hpi, by omega, ?_⟩
      intro t ht
      rcases List.mem_cons.mp ht with rfl | hmem
      · omega
      · have := hmemfacts t hmem
        omega
    · by_cases hhi : i < u.stop
      · -- i lies in u's span
        left
        refine ⟨u, List.mem_cons_self u ts, by omega, hhi, ?_⟩
        intro t' ht' hs' hi'
        rcases List.mem_cons.mp ht' with rfl | hmem
        · rfl
        · have := hmemfacts t' hmem
          omega
      · -- i lies beyond u: use the induction hypothesis from u.stop
        have hrec := ih u.stop hrest i (by omega) hilen
        rcases hrec with ⟨t, htmem, hts, hti, huniq⟩ | ⟨q, hq, hqi, hqskip, hnone⟩
        · left
          refine ⟨t, List.mem_cons_of_mem u htmem, hts, hti, ?_⟩
          intro t' ht' hs' hi'
          rcases List.mem_cons.mp ht' with rfl | hmem
          · omega
          · exact huniq t' hmem hs' hi'
        · right
          refine ⟨q, ?_, hqi, hqskip, ?_⟩
          · rcases hq with rfl | ⟨t, htmem, hstop⟩
            · exact Or.inr ⟨u, List.mem_cons_self u ts, rfl⟩
            · exact Or.inr ⟨t, List.mem_cons_of_mem u htmem, hstop⟩
          · intro t ht
            rcases List.mem_cons.mp ht with rfl | hmem
            · omega
            · exact hnone t hmem

/-! ## The claims -/

set_option maxRecDepth 40000 in
/-- Claim C1: the token vocabulary is a closed enumeration: every token the
lexer can emit has its kind among the fixed variants of the token table of
pikchr.h, and that table holds exactly 98 distinct variants. -/
theorem tokenKinds_closed :
    (∀ L t, (next L).1 = .tok t → t.kind ∈ tokenTable.map Prod.snd) ∧
    tokenTable.length = 98 ∧ (tokenTable.map Prod.snd).Nodup := by
  refine ⟨?_, by decide, by decide⟩
  intro L t h
  have hmem := next_kind_mem L t h
  have hsub : ∀ k ∈ emittableKinds, k ∈ tokenTable.map Prod.snd := by decide
  exact hsub _ hmem

set_option maxRecDepth 40000 in
/-- Witness for C1: lexing a plus sign emits a token whose kind is in the
token table. -/
theorem tokenKinds_closed_witness :
    (⟨T_PLUS, 0, 1, LitVal.nil, 1⟩ : Token).kind ∈ tokenTable.map Prod.snd :=
  tokenKinds_closed.1 (mkLexer "+") ⟨T_PLUS, 0, 1, LitVal.nil, 1⟩ rfl

/-- Claim C2: the lexer never distinguishes unary from binary minus: no
emitted token ever carries the parser-only kind T_UMINUS, and scanning a
minus sign that does not open an arrow yields the single minus kind
T_MINUS regardless of what follows. -/
theorem minus_single_kind :
    (∀ L t, (next L).1 = .tok t → t.kind ≠ T_UMINUS) ∧
    (∀ cs, headIs (fun c => c = '>') cs = false →
      opMatch ('-' :: cs) = some (T_MINUS, 1)) := by
  constructor
  · intro L t h hk
    have hmem := next_kind_mem L t h
    have hout : T_UMINUS ∉ emittableKinds := by decide
    rw [hk] at hmem
    exact hout hmem
  · intro cs h
    rw [opMatch.eq_def]
    simp only
    rw [if_neg (by decide)]
    simp [h]

/-- Witness for C2: a lexed minus is the minus kind, not T_UMINUS, and
minus before a letter matches as the single minus operator. -/
theorem minus_single_kind_witness :
    (⟨T_MINUS, 0, 1, LitVal.nil, 1⟩ : Token).kind ≠ T_UMINUS ∧
    opMatch ['-', 'a'] = some (T_MINUS, 1) :=
  ⟨minus_single_kind.1 (mkLexer "-") ⟨T_MINUS, 0, 1, LitVal.nil, 1⟩ (by decide),
   minus_single_kind.2 ['a'] (by decide)⟩

/-- Claim C3: tokenization is a deterministic function of the input text:
any two scans of the same input produce the identical token sequence and
outcome. -/
theorem tokenize_deterministic (s : String) (r1 r2 : List Token × Option LexErr)
    (h1 : tokenize s = r1) (h2 : tokenize s = r2) : r1 = r2 :=
  h1.symm.trans h2

/-- Witness for C3: two scans of the input up agree, both being the single
up-direction token. -/
theorem tokenize_deterministic_witness :
    ([(⟨T_UP, 0, 2, LitVal.nil, 1⟩ : Token)], (none : Option LexErr)) = tokenize "up" :=
  tokenize_deterministic "up" _ _ (by decide) rfl

/-- Claim C4: reserved words are matched case-insensitively and with
priority over shape-based classification: any identifier text whose
lowercased spelling is in the reserved-word table classifies as that
reserved word, never as a place name or class name; in particular up, Up
and UP all classify as the direction word T_UP. -/
theorem reserved_caseInsensitive_priority :
    (∀ w k, alookup kwTable (lowerStr w) = some k →
      classify w = k ∧ k ≠ T_PLACENAME ∧ k ≠ T_CLASSNAME) ∧
    classify "up" = T_UP ∧ classify "Up" = T_UP ∧ classify "UP" = T_UP := by
  refine ⟨?_, by decide, by decide, by decide⟩
  intro w k h
  have hcl : classify w = k := by
    unfold classify
    rw [h]
  have hk := alookup_mem _ _ _ h
  have h12 : T_PLACENAME ∉ kwTable.map Prod.snd := by decide
  have h26 : T_CLASSNAME ∉ kwTable.map Prod.snd := by decide
  exact ⟨hcl, fun he => h12 (he ▸ hk), fun he => h26 (he ▸ hk)⟩

/-- Witness for C4: the all-caps spelling UP classifies as the reserved
direction word, not as a place name or class name. -/
theorem reserved_caseInsensitive_priority_witness :
    classify "UP" = T_UP ∧ T_UP ≠ T_PLACENAME ∧ T_UP ≠ T_CLASSNAME :=
  reserved_caseInsensitive_priority.1 "UP" T_UP (by decide)

/-- Claim C5: multi-character operators are matched longest-first: the
input consisting of a left-right arrow lexes as the single double-arrow
token T_LRARROW spanning all three characters, never as two or three
separate single-character tokens. -/
theorem multichar_longest_match :
    tokenize "<->" = ([⟨T_LRARROW, 0, 3, LitVal.nil, 1⟩], none) ∧
    (tokenize "<->").1.map Token.kind = [T_LRARROW] := by
  constructor
  · rfl
  · rfl

/-- Claim C6: end-of-input is an idempotent terminal state: once next has
returned the end-of-input marker, every subsequent call (any number of
steps later) returns the marker again on the unchanged state, and never
an error. -/
theorem eoi_idempotent (L : Lexer) (h : (next L).1 = .eoi) :
    ∀ k, next (skipN k (next L).2) = (.eoi, (next L).2) := by
  have hstep := next_eoi_next L h
  have hfix : (next ((next L).2)).2 = (next L).2 := by rw [hstep]
  intro k
  induction k with
  | zero => exact hstep
  | succ k ihk =>
    simp only [skipN]
    rw [hfix]
    exact ihk

/-- Witness for C6: on the empty input the first call returns end-of-input
and the call two steps later still returns end-of-input. -/
theorem eoi_idempotent_witness :
    next (skipN 2 (next (mkLexer "")).2) = (.eoi, (next (mkLexer "")).2) :=
  eoi_idempotent (mkLexer "") rfl 2

/-- Claim C7: when the lexer scans an input to completion without error,
every character position of the input lies inside exactly one emitted
token's span, or else inside a discarded whitespace/comment run that
starts at the input start or at a token boundary; no character is
otherwise dropped. -/
theorem input_chars_partition (s : String) (ts : List Token)
    (h : tokenize s = (ts, none)) :
    ∀ i, i < s.data.length →
      (∃ t, t ∈ ts ∧ t.start ≤ i ∧ i < t.stop ∧
        ∀ t', t' ∈ ts → t'.start ≤ i → i < t'.stop → t' = t) ∨
      (∃ q, (q = 0 ∨ ∃ t ∈ ts, t.stop = q) ∧ q ≤ i ∧
        i < q + skipWsCom (s.data.drop q) ∧
        ∀ t ∈ ts, ¬(t.start ≤ i ∧ i < t.stop)) := by
  have h' : tokenizeFuel (s.data.length + 1) (mkLexer s) = (ts, none) := h
  have hcov : covers s.data 0 ts :=
    tokenizeFuel_covers (s.data.length + 1) (mkLexer s) ts rfl (Nat.zero_le _) h'
  intro i hi
  exact covers_partition s.data ts 0 hcov i (Nat.zero_le i) hi

set_option maxRecDepth 40000 in
/-- Witness for C7: in the two-identifier input with one blank, position 1
is discarded blank material starting at the first token's end, and is in
no token's span. -/
theorem input_chars_partition_witness :
    (∃ t, t ∈ [(⟨T_ID, 0, 1, LitVal.nil, 1⟩ : Token), ⟨T_ID, 2, 3, LitVal.nil, 1⟩] ∧
      t.start ≤ 1 ∧ 1 < t.stop ∧
      ∀ t', t' ∈ [(⟨T_ID, 0, 1, LitVal.nil, 1⟩ : Token), ⟨T_ID, 2, 3, LitVal.nil, 1⟩] →
        t'.start ≤ 1 → 1 < t'.stop → t' = t) ∨
    (∃ q, (q = 0 ∨ ∃ t ∈ [(⟨T_ID, 0, 1, LitVal.nil, 1⟩ : Token), ⟨T_ID, 2, 3, LitVal.nil, 1⟩],
        t.stop = q) ∧ q ≤ 1 ∧
      1 < q + skipWsCom (("a b" : String).data.drop q) ∧
      ∀ t ∈ [(⟨T_ID, 0, 1, LitVal.nil, 1⟩ : Token), ⟨T_ID, 2, 3, LitVal.nil, 1⟩],
        ¬(t.start ≤ 1 ∧ 1 < t.stop)) :=
  input_chars_partition "a b"
    [⟨T_ID, 0, 1, LitVal.nil, 1⟩, ⟨T_ID, 2, 3, LitVal.nil, 1⟩] (by decide) 1 (by decide)

set_option maxRecDepth 40000 in
/-- Claim C8: numeric scanning accepts digits with at most one decimal
point and an optional exponent: the inputs 3, 3.14 and .5 each lex as one
number token without error, while 3.1.4 fails with InvalidNumber at the
second decimal point, and a malformed exponent also fails with
InvalidNumber. -/
theorem numeric_literal_cases :
    (tokenize "3").1.map Token.kind = [T_NUMBER] ∧ (tokenize "3").2 = none ∧
    (tokenize "3.14").1.map Token.kind = [T_NUMBER] ∧ (tokenize "3.14").2 = none ∧
    (tokenize ".5").1.map Token.kind = [T_NUMBER] ∧ (tokenize ".5").2 = none ∧
    (tokenize "3.1.4").1 = [] ∧
    (tokenize "3.1.4").2 = some ⟨.invalidNumber, 3, 1⟩ ∧
    (tokenize "3e").2 = some ⟨.invalidNumber, 2, 1⟩ :=
  ⟨rfl, rfl, rfl, rfl, rfl, rfl, rfl, rfl, rfl⟩

/-- Claim C9: the reserved-word vocabulary maps each of the six direction
words up, down, left, right, cw and ccw to its own token kind, and no two
of those kinds coincide. -/
theorem direction_words_distinct :
    alookup kwTable "up" = some T_UP ∧ alookup kwTable "down" = some T_DOWN ∧
    alookup kwTable "left" = some T_LEFT ∧ alookup kwTable "right" = some T_RIGHT ∧
    alookup kwTable "cw" = some T_CW ∧ alookup kwTable "ccw" = some T_CCW ∧
    ([T_UP, T_DOWN, T_LEFT, T_RIGHT, T_CW, T_CCW] : List Nat).Nodup := by
  decide

set_option maxRecDepth 40000 in
/-- Claim C10: the 98 token-kind constants of pikchr.h are pairwise
distinct and are exactly the consecutive integers 1 through 98, so the
value 0 is unused by any named kind and free for the end-of-input
marker. -/
theorem tokenTable_consecutive :
    tokenTable.map Prod.snd = List.range' 1 98 ∧
    tokenTable.length = 98 ∧ (tokenTable.map Prod.snd).Nodup ∧
    0 ∉ tokenTable.map Prod.snd := by
  decide
